import Mathlib

/-!
Shallow embedding, in Lean 4, of the RLP codec in `src/encode.js` of the
secjs-rlp repository (functions `encode`, `encodeLength`, `safeParseInt`,
`decode`, `getLength`, `_decode`, `intToHex`, `padToEven`, `intToBuffer`,
`toBuffer`, `isHexPrefixed`), together with theorems settling the frozen
claims about that code.

Modelling conventions:
* a Node `Buffer` is a `List Nat` of byte values (a real buffer holds values
  below 256; theorems that depend on this say so explicitly);
* JavaScript numbers that can be `NaN` are modelled by `Option Nat`
  (`none` is `NaN`); `parseInt` of an empty string yields `NaN`, and
  `Buffer.slice` coerces a `NaN` index to `0` — mirrored by `jsSlice` and
  `jsSliceFrom` below;
* the recursive decoder `_decode` can loop forever in JavaScript (its
  long-string branch can return a remainder equal to its input), so its
  embedding `decodeCore` takes a fuel argument; the exported `decode`
  supplies fuel `2 * input.length + 2`, which is proved sufficient on
  every terminating path exercised by the theorems;
* throwing `new Error(msg)` is modelled with `Except Err`, one constructor
  per distinct message string in the source.
-/

/-- Error values, one per `throw` site of `src/encode.js`.  The natural
language specification names these: `errExtraZeros` is the message
"invalid RLP: extra zeros" (spec: RedundantLengthBytes), `errNonCanonical`
is "invalid rlp encoding: byte must be less 0x80" (spec:
NonCanonicalSingleByte), `errInvalidRLP` is "invalid RLP" and
`errTotalLength` is "invalid rlp: total length is larger than the data"
(spec: TruncatedInput), `errListLength` is "invalid rlp, List has a
invalid length", `errInvalidRemainder` is "invalid remainder" (spec:
TrailingBytes), `errInvalidType` is "invalid type" (spec:
InvalidInputType).  `errOutOfFuel` is not a JavaScript error: it marks
exhaustion of the fuel that replaces the unbounded recursion. -/
inductive Err where
  | errExtraZeros
  | errNonCanonical
  | errInvalidRLP
  | errTotalLength
  | errListLength
  | errInvalidRemainder
  | errInvalidType
  | errOutOfFuel
deriving DecidableEq, Repr

/-- The decoded domain: an RLP item is a byte string or a list of items. -/
inductive Item where
  | bytes (data : List Nat)
  | list (items : List Item)
deriving Repr

/-- JavaScript `Buffer.prototype.slice start end` on byte lists, with the
end index a possibly-NaN number (`none` = NaN, which `ToIntegerOrInfinity`
turns into 0).  Both indices clamp to the length, and an end before the
start yields the empty buffer. -/
def jsSlice (l : List Nat) (s : Nat) (e : Option Nat) : List Nat :=
  let e' := match e with
    | none => 0
    | some n => min n l.length
  (l.drop (min s l.length)).take (e' - min s l.length)

/-- JavaScript `Buffer.prototype.slice start` (one argument) with a
possibly-NaN start index (NaN coerces to 0). -/
def jsSliceFrom (l : List Nat) (s : Option Nat) : List Nat :=
  l.drop (match s with
    | none => 0
    | some n => n)

/-- Addition of a possibly-NaN number and a number (`NaN + k = NaN`). -/
def jsAdd (x : Option Nat) (k : Nat) : Option Nat :=
  x.map (fun n => n + k)

/-- JavaScript `x > k` where `x` may be NaN or undefined: any comparison
with NaN is false. -/
def jsGt (x : Option Nat) (k : Nat) : Bool :=
  match x with
  | none => false
  | some v => decide (v > k)

/-- JavaScript `x < k` where `x` may be NaN or undefined (`data[0]` of an
empty buffer): any comparison with NaN or undefined is false. -/
def jsLt (x : Option Nat) (k : Nat) : Bool :=
  match x with
  | none => false
  | some v => decide (v < k)

/-- JavaScript `a < x` where `x` may be NaN: false when `x` is NaN. -/
def jsLtNum (a : Nat) (x : Option Nat) : Bool :=
  match x with
  | none => false
  | some v => decide (a < v)

/-- Big-endian value of a byte list (what `parseInt(hex, 16)` computes on
the hex rendering of the bytes). -/
def beFold (l : List Nat) : Nat :=
  l.foldl (fun a b => a * 256 + b) 0

/-- Minimal big-endian byte representation of a number: empty for 0,
otherwise most significant byte first with no leading zero byte. -/
def beBytes (n : Nat) : List Nat :=
  if h : n = 0 then []
  else beBytes (n / 256) ++ [n % 256]
decreasing_by exact Nat.div_lt_self (Nat.pos_of_ne_zero h) (by omega)

/-- The hex digit character for a value below 16, as produced by the
JavaScript `Number.prototype.toString 16` (lowercase). -/
def hexChar (n : Nat) : Char :=
  if n < 10 then Char.ofNat (48 + n) else Char.ofNat (87 + n)

/-- Digit string of `Number.prototype.toString 16` for a non-negative
number: hex digits, most significant first, no leading zeros (and the
single digit 0 for zero). -/
def hexDigits (n : Nat) : List Char :=
  if h : n < 16 then [hexChar n]
  else hexDigits (n / 16) ++ [hexChar (n % 16)]
decreasing_by exact Nat.div_lt_self (by omega) (by omega)

/-- Source `padToEven`: prepend one 0 digit when the digit count is odd. -/
def padToEven (a : List Char) : List Char :=
  if a.length % 2 = 1 then '0' :: a else a

/-- Numeric value of a hex digit character, `none` for a non-hex
character. -/
def hexDigitVal (c : Char) : Option Nat :=
  if '0' ≤ c ∧ c ≤ '9' then some (c.toNat - 48)
  else if 'a' ≤ c ∧ c ≤ 'f' then some (c.toNat - 87)
  else if 'A' ≤ c ∧ c ≤ 'F' then some (c.toNat - 55)
  else none

/-- Node `Buffer.from str hex`: consume the characters two at a time; a
pair with a non-hex character, or a trailing lone character, stops the
conversion, keeping what was decoded so far. -/
def bufferFromHex : List Char → List Nat
  | c1 :: c2 :: rest =>
    match hexDigitVal c1, hexDigitVal c2 with
    | some h, some l => (16 * h + l) :: bufferFromHex rest
    | _, _ => []
  | _ => []

/-- Source `intToHex`: `i.toString 16`, then pad to an even digit count.
A negative number renders with a leading minus sign, exactly as
`Number.prototype.toString` does. -/
def intToHex (i : Int) : List Char :=
  padToEven (if i < 0 then '-' :: hexDigits i.natAbs else hexDigits i.toNat)

/-- Source `encodeLength`: below 56 a single byte `len + offset`,
otherwise `Buffer.from (intToHex (offset + 55 + lLength) ++ intToHex len)
hex` where `lLength` is half the digit count of `intToHex len`. -/
def encodeLength (len offset : Nat) : List Nat :=
  if len < 56 then [len + offset]
  else
    let hexLength := intToHex len
    let lLength := hexLength.length / 2
    bufferFromHex (intToHex (offset + 55 + lLength) ++ hexLength)

/-- Source `safeParseInt` applied to `buf.toString hex`: throws on a hex
string starting with two zero digits, which for the hex rendering of a
byte buffer happens exactly when the first byte is 0; `parseInt` of the
empty string is NaN (`none`); otherwise the big-endian value. -/
def safeParseInt (l : List Nat) : Except Err (Option Nat) :=
  match l with
  | [] => .ok none
  | b :: _ => if b = 0 then .error .errExtraZeros else .ok (some (beFold l))

mutual

/-- Source `encode` restricted to buffer/array trees (on a Buffer,
`toBuffer` is the identity): a single byte below 128 is its own encoding,
any other byte string gets a `encodeLength _ 128` prefix, and a list is
the concatenation of the encodings of its children behind a
`encodeLength _ 192` prefix. -/
def encode : Item → List Nat
  | .bytes input =>
    if input.length = 1 ∧ jsLt input.head? 128 then input
    else encodeLength input.length 128 ++ input
  | .list items =>
    let buf := encodeAll items
    encodeLength buf.length 192 ++ buf

/-- The concatenation `Buffer.concat output` of the encodings of the
elements of an array, in order. -/
def encodeAll : List Item → List Nat
  | [] => []
  | x :: xs => encode x ++ encodeAll xs

end

mutual

/-- Fuel bound for `decodeCore`: enough calls to decode this item. -/
def count : Item → Nat
  | .bytes _ => 1
  | .list items => 2 + countAll items

/-- Fuel bound for decoding a sequence of sibling items. -/
def countAll : List Item → Nat
  | [] => 0
  | x :: xs => count x + countAll xs

end

mutual

/-- Size restriction under which the embedding is faithful to JavaScript:
every byte-string length and every list payload length stays below 2^53,
the bound up to which JavaScript numbers are exact integers (real Node
buffers are far smaller). -/
def sizeOK : Item → Bool
  | .bytes s => decide (s.length < 2 ^ 53)
  | .list items => decide ((encodeAll items).length < 2 ^ 53) && sizeAllOK items

/-- All elements of a list satisfy `sizeOK`. -/
def sizeAllOK : List Item → Bool
  | [] => true
  | x :: xs => sizeOK x && sizeAllOK xs

end

mutual

/-- Source `_decode`, with fuel.  Branch for branch:
* an empty input reads `undefined` as its first byte; every range test on
  `undefined` is false, so control falls into the long-list branch, where
  the NaN arithmetic empties the payload span and the code throws
  "invalid rlp, List has a invalid length";
* a first byte up to 0x7f is its own one-byte item;
* up to 0xb7: short string of total length `firstByte - 0x7f`, with the
  0x80 special case and the single-byte canonicity check (`data[0]` of an
  empty buffer is `undefined`, which compares false);
* up to 0xbf: long string; the parsed length may be NaN, and then the
  payload slice is empty, the truncation test is false, and the returned
  remainder is the whole input (the JavaScript nontermination source);
* up to 0xf7: short list over the captured payload span;
* above: long list, with the total length test, the empty-span test, and
  the loop over the span. -/
def decodeCore : Nat → List Nat → Except Err (Item × List Nat)
  | 0, _ => .error .errOutOfFuel
  | _ + 1, [] => .error .errListLength
  | fuel + 1, input@(firstByte :: _) =>
    if firstByte ≤ 0x7f then
      .ok (.bytes (jsSlice input 0 (some 1)), input.drop 1)
    else if firstByte ≤ 0xb7 then
      let length := firstByte - 0x7f
      let data := if firstByte = 0x80 then [] else jsSlice input 1 (some length)
      if length = 2 ∧ jsLt data.head? 0x80 then .error .errNonCanonical
      else .ok (.bytes data, input.drop length)
    else if firstByte ≤ 0xbf then
      let llength := firstByte - 0xb6
      match safeParseInt (jsSlice input 1 (some llength)) with
      | .error e => .error e
      | .ok length =>
        let data := jsSlice input llength (jsAdd length llength)
        if jsLtNum data.length length then .error .errInvalidRLP
        else .ok (.bytes data, jsSliceFrom input (jsAdd length llength))
    else if firstByte ≤ 0xf7 then
      let length := firstByte - 0xbf
      let inner := jsSlice input 1 (some length)
      match decodeItems fuel inner with
      | .error e => .error e
      | .ok ds => .ok (.list ds, input.drop length)
    else
      let llength := firstByte - 0xf6
      match safeParseInt (jsSlice input 1 (some llength)) with
      | .error e => .error e
      | .ok length =>
        let totalLength := jsAdd length llength
        if jsGt totalLength input.length then .error .errTotalLength
        else
          let inner := jsSlice input llength totalLength
          if inner.length = 0 then .error .errListLength
          else
            match decodeItems fuel inner with
            | .error e => .error e
            | .ok ds => .ok (.list ds, jsSliceFrom input totalLength)

/-- The `while innerRemainder.length` loop of the two list branches:
decode one child off the front of the span, push it, continue on the
returned remainder until the span is empty. -/
def decodeItems : Nat → List Nat → Except Err (List Item)
  | _, [] => .ok []
  | 0, _ :: _ => .error .errOutOfFuel
  | fuel + 1, rem@(_ :: _) =>
    match decodeCore fuel rem with
    | .error e => .error e
    | .ok (d, r) =>
      match decodeItems fuel r with
      | .error e => .error e
      | .ok ds => .ok (d :: ds)

end

/-- Source top-level `decode` on a buffer (a falsy or empty input returns
an empty buffer; `toBuffer` of a Buffer is the identity).  Note the
remainder test of the source: it throws "invalid remainder" when the
remainder is EMPTY and returns the decoded data when bytes are left
over. -/
def decode (input : List Nat) : Except Err Item :=
  if input.length = 0 then .ok (.bytes [])
  else
    match decodeCore (2 * input.length + 2) input with
    | .error e => .error e
    | .ok (data, remainder) =>
      if remainder.length = 0 then .error .errInvalidRemainder
      else .ok data

/-- Result type of `getLength`: the source returns an empty Buffer for
missing or empty input and a number (possibly NaN) otherwise. -/
inductive GetLenRes where
  | buf (b : List Nat)
  | num (n : Option Nat)
deriving DecidableEq, Repr

/-- Source `getLength` (`none` input models both `null` and `undefined`,
which the `!input` test conflates): empty-ish input returns an empty
Buffer; otherwise the branch table on the first byte, where only the
long-list branch reads the length field. -/
def getLength (input : Option (List Nat)) : Except Err GetLenRes :=
  match input with
  | none => .ok (.buf [])
  | some l =>
    match l with
    | [] => .ok (.buf [])
    | firstByte :: _ =>
      if firstByte ≤ 0x7f then .ok (.num (some l.length))
      else if firstByte ≤ 0xb7 then .ok (.num (some (firstByte - 0x7f)))
      else if firstByte ≤ 0xbf then .ok (.num (some (firstByte - 0xb6)))
      else if firstByte ≤ 0xf7 then .ok (.num (some (firstByte - 0xbf)))
      else
        let llength := firstByte - 0xf6
        match safeParseInt (jsSlice l 1 (some llength)) with
        | .error e => .error e
        | .ok length => .ok (.num (jsAdd length llength))

/-- The UTF-8 bytes of a string, as `Buffer.from str` produces. -/
def utf8Bytes (s : String) : List Nat :=
  s.toUTF8.toList.map (fun b => b.toNat)

/-- Source `isHexPrefixed`: the first two characters are `0x`. -/
def isHexPrefixed (s : String) : Bool :=
  s.toList.take 2 = ['0', 'x']

/-- Input domain of `toBuffer`: a Buffer, a string, an integral number
(floating point numbers are outside this embedding), `null`, `undefined`,
a big-number-like object exposing `toArray`, or any other value (boolean,
plain object, function, symbol). -/
inductive JSVal where
  | buf (b : List Nat)
  | str (s : String)
  | num (i : Int)
  | null
  | undef
  | bn (digits : List Nat)
  | other
deriving DecidableEq, Repr

/-- Source `toBuffer`: Buffers pass through; a `0x` string is stripped
(`stripHexPrefix`), padded to even length (`padToEven`) and hex-decoded;
any other string converts to its UTF-8 bytes; the number 0 (falsy) gives
an empty buffer and any other number goes through `intToBuffer`
(hex-render then hex-decode — for a negative number the leading minus
sign stops `Buffer.from _ hex` at once, yielding an empty buffer);
`null`/`undefined` give an empty buffer; an object with `toArray` gives
the bytes of that array; anything else throws "invalid type". -/
def toBuffer (v : JSVal) : Except Err (List Nat) :=
  match v with
  | .buf b => .ok b
  | .str s =>
    if isHexPrefixed s then .ok (bufferFromHex (padToEven (s.toList.drop 2)))
    else .ok (utf8Bytes s)
  | .num i => if i = 0 then .ok [] else .ok (bufferFromHex (intToHex i))
  | .null => .ok []
  | .undef => .ok []
  | .bn digits => .ok digits
  | .other => .error .errInvalidType

/-! Helper lemmas about the byte-level primitives. -/

/-- Slicing with a NaN end index yields the empty buffer. -/
theorem jsSlice_none (l : List Nat) (s : Nat) : jsSlice l s none = [] := by
  simp [jsSlice]

/-- Slicing the first byte off the front. -/
theorem jsSlice_zero_one (a : Nat) (t : List Nat) :
    jsSlice (a :: t) 0 (some 1) = [a] := by
  simp [jsSlice]

/-- Slicing from index 1 of a cons takes a prefix of the tail. -/
theorem jsSlice_one (a : Nat) (t : List Nat) (k : Nat) :
    jsSlice (a :: t) 1 (some k) = t.take (k - 1) := by
  simp only [jsSlice, List.length_cons]
  have h1 : min 1 (t.length + 1) = 1 := by omega
  rw [h1, List.drop_one, List.tail_cons, List.take_eq_take]
  omega

/-- Slicing from the length of a prefix to that length plus `k` takes the
first `k` elements of the rest. -/
theorem jsSlice_append (p rest : List Nat) (k : Nat) :
    jsSlice (p ++ rest) p.length (some (p.length + k)) = rest.take k := by
  simp only [jsSlice, List.length_append]
  have h1 : min p.length (p.length + rest.length) = p.length := by omega
  have h2 : min (p.length + k) (p.length + rest.length) =
      p.length + min k rest.length := by omega
  rw [h1, h2, List.drop_left, List.take_eq_take]
  omega

/-- Dropping past a prefix. -/
theorem drop_append_len (p rest : List Nat) (k : Nat) :
    (p ++ rest).drop (p.length + k) = rest.drop k := by
  rw [← List.drop_drop, List.drop_left]

/-- `beFold` of a snoc. -/
theorem beFold_concat (l : List Nat) (b : Nat) :
    beFold (l ++ [b]) = beFold l * 256 + b := by
  simp [beFold, List.foldl_append]

/-- `beFold` of a cons is at least the head. -/
theorem beFold_cons_ge (b : Nat) (t : List Nat) : b ≤ beFold (b :: t) := by
  have key : ∀ (t : List Nat) (a : Nat),
      a ≤ t.foldl (fun a b => a * 256 + b) a := by
    intro t
    induction t with
    | nil => intro a; exact Nat.le_refl a
    | cons x xs ih =>
      intro a
      refine Nat.le_trans ?_ (ih (a * 256 + x))
      have ha : a ≤ a * 256 := Nat.le_mul_of_pos_right a (by omega)
      omega
  simpa [beFold] using key t b

/-- `beBytes` of zero is empty. -/
theorem beBytes_zero : beBytes 0 = [] := by
  rw [beBytes]
  simp

/-- Unfolding `beBytes` at a nonzero argument. -/
theorem beBytes_succ (n : Nat) (h : n ≠ 0) :
    beBytes n = beBytes (n / 256) ++ [n % 256] := by
  rw [beBytes]
  simp [h]

/-- `beBytes` of a nonzero number below 256 is one byte. -/
theorem beBytes_single (n : Nat) (h0 : n ≠ 0) (h1 : n < 256) :
    beBytes n = [n] := by
  rw [beBytes_succ n h0, Nat.div_eq_of_lt h1, beBytes_zero, Nat.mod_eq_of_lt h1]
  rfl

/-- `beFold` undoes `beBytes`. -/
theorem beFold_beBytes (n : Nat) : beFold (beBytes n) = n := by
  induction n using Nat.strong_induction_on with
  | _ n ih =>
    by_cases h : n = 0
    · subst h; rw [beBytes_zero]; rfl
    · rw [beBytes_succ n h, beFold_concat,
        ih (n / 256) (Nat.div_lt_self (Nat.pos_of_ne_zero h) (by omega))]
      omega

/-- `beBytes` of a nonzero number starts with a nonzero byte. -/
theorem beBytes_head_pos (n : Nat) (h : n ≠ 0) :
    ∃ b t, beBytes n = b :: t ∧ b ≠ 0 := by
  induction n using Nat.strong_induction_on with
  | _ n ih =>
    by_cases hlt : n < 256
    · exact ⟨n, [], beBytes_single n h hlt, h⟩
    · have hq : n / 256 ≠ 0 := by
        have := Nat.div_pos (by omega : 256 ≤ n) (by omega : 0 < 256)
        omega
      obtain ⟨b, t, hbt, hb⟩ :=
        ih (n / 256) (Nat.div_lt_self (Nat.pos_of_ne_zero h) (by omega)) hq
      exact ⟨b, t ++ [n % 256], by rw [beBytes_succ n h, hbt]; rfl, hb⟩

/-- `beBytes` of a nonzero number is nonempty. -/
theorem beBytes_ne_nil (n : Nat) (h : n ≠ 0) : beBytes n ≠ [] := by
  obtain ⟨b, t, hbt, _⟩ := beBytes_head_pos n h
  simp [hbt]

/-- Length bound for `beBytes`: a number below `256 ^ k` needs at most `k`
bytes. -/
theorem beBytes_length_le (k : Nat) : ∀ n, n < 256 ^ k → (beBytes n).length ≤ k := by
  induction k with
  | zero =>
    intro n hn
    have : n = 0 := by simpa using hn
    simp [this, beBytes_zero]
  | succ k ih =>
    intro n hn
    by_cases h : n = 0
    · simp [h, beBytes_zero]
    · rw [beBytes_succ n h]
      have : n / 256 < 256 ^ k := by
        rw [Nat.div_lt_iff_lt_mul (by omega)]
        calc n < 256 ^ (k + 1) := hn
          _ = 256 ^ k * 256 := by rw [Nat.pow_succ]
      have := ih (n / 256) this
      simp only [List.length_append, List.length_cons, List.length_nil]
      omega

/-- `safeParseInt` of `beBytes n` recovers a nonzero `n`. -/
theorem safeParseInt_beBytes (n : Nat) (h : n ≠ 0) :
    safeParseInt (beBytes n) = .ok (some n) := by
  obtain ⟨b, t, hbt, hb⟩ := beBytes_head_pos n h
  rw [hbt]
  simp only [safeParseInt, hb, if_false]
  rw [← hbt, beFold_beBytes]

/-- A successfully parsed length is positive (the hex rendering of a byte
buffer that does not start with zero digits has a nonzero leading byte). -/
theorem safeParseInt_pos (l : List Nat) (v : Nat)
    (h : safeParseInt l = .ok (some v)) : 1 ≤ v := by
  match l with
  | [] => simp [safeParseInt] at h
  | b :: t =>
    simp only [safeParseInt] at h
    by_cases hb : b = 0
    · simp [hb] at h
    · simp only [hb, if_false, Except.ok.injEq, Option.some.injEq] at h
      have := beFold_cons_ge b t
      omega

/-! Lemmas connecting the hex rendering pipeline of the source
(`intToHex`, `padToEven`, `Buffer.from _ hex`) with the big-endian byte
representation. -/

/-- `hexChar` renders a value below 16 to a digit that reads back. -/
theorem hexDigitVal_hexChar (n : Nat) (h : n < 16) :
    hexDigitVal (hexChar n) = some n := by
  interval_cases n <;> rfl

/-- The digit string of a number is never empty. -/
theorem hexDigits_ne_nil (n : Nat) : hexDigits n ≠ [] := by
  rw [hexDigits]
  split <;> simp

/-- Unfolding `hexDigits` below 16. -/
theorem hexDigits_lt16 (n : Nat) (h : n < 16) : hexDigits n = [hexChar n] := by
  rw [hexDigits]
  simp [h]

/-- Unfolding `hexDigits` at 16 and above. -/
theorem hexDigits_ge16 (n : Nat) (h : ¬n < 16) :
    hexDigits n = hexDigits (n / 16) ++ [hexChar (n % 16)] := by
  rw [hexDigits]
  simp [h]

/-- Decoding one hex pair off the front. -/
theorem bufferFromHex_cons (c1 c2 : Char) (r : List Char) (h l : Nat)
    (h1 : hexDigitVal c1 = some h) (h2 : hexDigitVal c2 = some l) :
    bufferFromHex (c1 :: c2 :: r) = (16 * h + l) :: bufferFromHex r := by
  simp [bufferFromHex, h1, h2]

/-- `padToEven` keeps an even-length string unchanged. -/
theorem padToEven_even (a : List Char) (h : a.length % 2 = 0) :
    padToEven a = a := by
  simp [padToEven]
  omega

/-- `padToEven` commutes with appending two characters. -/
theorem padToEven_append_two (a : List Char) (c d : Char) :
    padToEven (a ++ [c, d]) = padToEven a ++ [c, d] := by
  simp only [padToEven, List.length_append, List.length_cons, List.length_nil]
  have h2 : (a.length + (0 + 1 + 1)) % 2 = a.length % 2 := by omega
  rw [h2]
  split <;> simp

/-- The key hex correspondence: for a nonzero number, hex-rendering with
even padding and then hex-decoding produces exactly the minimal big-endian
bytes (with any even-position tail decoded after it), and the padded digit
count is twice the byte count. -/
theorem hexDigits_beBytes (n : Nat) (h : n ≠ 0) :
    (∀ tail, bufferFromHex (padToEven (hexDigits n) ++ tail) =
      beBytes n ++ bufferFromHex tail) ∧
    (padToEven (hexDigits n)).length = 2 * (beBytes n).length := by
  induction n using Nat.strong_induction_on with
  | _ n ih =>
    by_cases h16 : n < 16
    · have hd : hexDigits n = [hexChar n] := hexDigits_lt16 n h16
      have hpad : padToEven (hexDigits n) = ['0', hexChar n] := by
        rw [hd]; rfl
      have hb : beBytes n = [n] := beBytes_single n h (by omega)
      constructor
      · intro tail
        simp only [hpad, hb, List.cons_append, List.nil_append]
        rw [bufferFromHex_cons '0' (hexChar n) tail 0 n rfl
            (hexDigitVal_hexChar n h16)]
        simp
      · rw [hpad, hb]
        rfl
    · by_cases h256 : n < 256
      · have hq16 : n / 16 < 16 := by omega
        have hd : hexDigits n = [hexChar (n / 16), hexChar (n % 16)] := by
          rw [hexDigits_ge16 n h16, hexDigits_lt16 (n / 16) hq16]
          rfl
        have hpad : padToEven (hexDigits n) = [hexChar (n / 16), hexChar (n % 16)] := by
          rw [hd]
          exact padToEven_even _ (by simp)
        have hb : beBytes n = [n] := beBytes_single n h h256
        constructor
        · intro tail
          simp only [hpad, hb, List.cons_append, List.nil_append]
          rw [bufferFromHex_cons _ _ tail (n / 16) (n % 16)
              (hexDigitVal_hexChar _ hq16) (hexDigitVal_hexChar _ (by omega))]
          have : 16 * (n / 16) + n % 16 = n := by omega
          rw [this]
        · rw [hpad, hb]
          rfl
      · have hq : ¬n / 16 < 16 := by omega
        have hqq : n / 16 / 16 = n / 256 := by
          rw [Nat.div_div_eq_div_mul]
        have hd : hexDigits n =
            hexDigits (n / 256) ++ [hexChar (n / 16 % 16), hexChar (n % 16)] := by
          rw [hexDigits_ge16 n h16, hexDigits_ge16 (n / 16) hq, hqq,
            List.append_assoc]
          rfl
        have hq0 : n / 256 ≠ 0 := by
          have := Nat.div_pos (by omega : 256 ≤ n) (by omega : 0 < 256)
          omega
        obtain ⟨ihMain, ihLen⟩ :=
          ih (n / 256) (Nat.div_lt_self (by omega) (by omega)) hq0
        have hmod : 16 * (n / 16 % 16) + n % 16 = n % 256 := by omega
        constructor
        · intro tail
          rw [hd, padToEven_append_two, List.append_assoc, ihMain]
          simp only [List.cons_append, List.nil_append]
          rw [bufferFromHex_cons _ _ tail (n / 16 % 16) (n % 16)
              (hexDigitVal_hexChar _ (by omega)) (hexDigitVal_hexChar _ (by omega)),
            hmod, beBytes_succ n h]
          simp
        · rw [hd, padToEven_append_two, beBytes_succ n h]
          simp only [List.length_append, List.length_cons, List.length_nil, ihLen]
          omega

/-- Hex-rendering with padding and decoding, no tail. -/
theorem bufferFromHex_pad (n : Nat) (h : n ≠ 0) :
    bufferFromHex (padToEven (hexDigits n)) = beBytes n := by
  have := (hexDigits_beBytes n h).1 []
  simpa [bufferFromHex] using this

/-- `intToHex` on a natural number is the padded digit string. -/
theorem intToHex_natCast (m : Nat) :
    intToHex (m : Int) = padToEven (hexDigits m) := by
  have h : ¬((m : Int) < 0) := by omega
  simp [intToHex, h]

/-- Shape of `encodeLength` on the sizes JavaScript numbers represent
exactly: a single byte `len + offset` below 56, otherwise the marker byte
`offset + 55 + lengthByteCount` followed by the minimal big-endian bytes
of `len`. -/
theorem encodeLength_eq (len offset : Nat) (hlen : len < 2 ^ 53)
    (hoff : offset ≤ 192) :
    encodeLength len offset =
      if len < 56 then [len + offset]
      else (offset + 55 + (beBytes len).length) :: beBytes len := by
  by_cases h : len < 56
  · simp [encodeLength, h]
  · simp only [encodeLength, h, if_false]
    have hlen0 : len ≠ 0 := by omega
    have hL : (intToHex (len : Int)).length = 2 * (beBytes len).length := by
      rw [intToHex_natCast]
      exact (hexDigits_beBytes len hlen0).2
    have hL7 : (beBytes len).length ≤ 7 := by
      refine beBytes_length_le 7 len ?_
      have : (2 : Nat) ^ 53 ≤ 256 ^ 7 := by norm_num
      omega
    have hdiv : (intToHex (len : Int)).length / 2 = (beBytes len).length := by
      rw [hL]
      omega
    rw [hdiv]
    have hm0 : offset + 55 + (beBytes len).length ≠ 0 := by omega
    have hm256 : offset + 55 + (beBytes len).length < 256 := by omega
    have hcast : ((offset : Int) + 55 + ((beBytes len).length : Int)) =
        ((offset + 55 + (beBytes len).length : Nat) : Int) := by
      push_cast
      ring
    rw [hcast, intToHex_natCast, intToHex_natCast,
      (hexDigits_beBytes (offset + 55 + (beBytes len).length) hm0).1,
      bufferFromHex_pad len hlen0, beBytes_single _ hm0 hm256]
    rfl

/-! Shape lemmas: how `decodeCore` consumes each encoded form. -/

/-- The item loop accepts an empty span at any fuel. -/
theorem decodeItems_nil (fuel : Nat) : decodeItems fuel [] = .ok [] := by
  cases fuel <;> simp [decodeItems]

/-- A single byte below 0x80 decodes to itself. -/
theorem decodeCore_single (fuel : Nat) (b : Nat) (rest : List Nat)
    (hb : b ≤ 0x7f) :
    decodeCore (fuel + 1) (b :: rest) = .ok (.bytes [b], rest) := by
  simp only [decodeCore]
  rw [if_pos hb, jsSlice_zero_one]
  simp

/-- A short-string framing decodes to its payload (the payload must not be
a lone byte below 0x80, which the canonicity check would reject). -/
theorem decodeCore_short_string (fuel : Nat) (s rest : List Nat)
    (h56 : s.length ≤ 55)
    (hcanon : s.length = 1 → jsLt s.head? 128 = false) :
    decodeCore (fuel + 1) ((s.length + 128) :: (s ++ rest)) =
      .ok (.bytes s, rest) := by
  simp only [decodeCore]
  rw [if_neg (by omega : ¬s.length + 128 ≤ 0x7f),
    if_pos (by omega : s.length + 128 ≤ 0xb7)]
  have hlen : s.length + 128 - 0x7f = s.length + 1 := by omega
  rw [hlen]
  by_cases hnil : s = []
  · subst hnil
    simp only [List.length_nil, List.nil_append]
    norm_num
  · have hne : s.length ≠ 0 := by
      simpa [List.length_eq_zero] using hnil
    rw [if_neg (by omega : ¬s.length + 128 = 0x80), jsSlice_one]
    have htake : (s ++ rest).take (s.length + 1 - 1) = s := by
      have : s.length + 1 - 1 = s.length := by omega
      rw [this, List.take_left]
    rw [htake]
    have hcheck : ¬(s.length + 1 = 2 ∧ jsLt s.head? 0x80 = true) := by
      rintro ⟨h2, hlt⟩
      have h1 : s.length = 1 := by omega
      rw [hcanon h1] at hlt
      exact Bool.false_ne_true hlt
    rw [if_neg hcheck]
    have hdrop : ((s.length + 128) :: (s ++ rest)).drop (s.length + 1) = rest := by
      have : ((s.length + 128) :: (s ++ rest)).drop (s.length + 1) =
          (s ++ rest).drop s.length := by
        simp [List.drop_succ_cons]
      rw [this, List.drop_left]
    rw [hdrop]

/-- A long-string framing decodes to its payload. -/
theorem decodeCore_long_string (fuel : Nat) (s rest : List Nat)
    (h56 : 56 ≤ s.length) (hbig : s.length < 2 ^ 53) :
    decodeCore (fuel + 1)
      ((183 + (beBytes s.length).length) :: (beBytes s.length ++ (s ++ rest))) =
      .ok (.bytes s, rest) := by
  have hne : s.length ≠ 0 := by omega
  have hL1 : 1 ≤ (beBytes s.length).length := by
    have := beBytes_ne_nil s.length hne
    cases hb : beBytes s.length with
    | nil => exact absurd hb this
    | cons a t => simp [hb]
  have hL7 : (beBytes s.length).length ≤ 7 := by
    refine beBytes_length_le 7 s.length ?_
    have : (2 : Nat) ^ 53 ≤ 256 ^ 7 := by norm_num
    omega
  set L := (beBytes s.length).length with hLdef
  simp only [decodeCore]
  rw [if_neg (by omega : ¬183 + L ≤ 0x7f),
    if_neg (by omega : ¬183 + L ≤ 0xb7),
    if_pos (by omega : 183 + L ≤ 0xbf)]
  have hll : 183 + L - 0xb6 = L + 1 := by omega
  rw [hll, jsSlice_one]
  have hslice : (beBytes s.length ++ (s ++ rest)).take (L + 1 - 1) =
      beBytes s.length := by
    have : L + 1 - 1 = L := by omega
    rw [this, hLdef, List.take_left]
  rw [hslice, safeParseInt_beBytes s.length hne]
  simp only [jsAdd, Option.map]
  have hp : ((183 + L) :: beBytes s.length).length = L + 1 := by
    simp [hLdef]
  have hform : (183 + L) :: (beBytes s.length ++ (s ++ rest)) =
      ((183 + L) :: beBytes s.length) ++ (s ++ rest) := by
    simp
  have harg : s.length + (L + 1) =
      ((183 + L) :: beBytes s.length).length + s.length := by
    rw [hp]
    omega
  have hdata : jsSlice ((183 + L) :: (beBytes s.length ++ (s ++ rest))) (L + 1)
      (some (s.length + (L + 1))) = s := by
    rw [hform, harg]
    have hp2 : L + 1 = ((183 + L) :: beBytes s.length).length := hp.symm
    rw [hp2, jsSlice_append, List.take_left]
  rw [hdata]
  have hlt : jsLtNum s.length (some s.length) = false := by
    simp [jsLtNum]
  rw [hlt]
  simp only [Bool.false_eq_true, if_false, jsSliceFrom]
  have hdrop : ((183 + L) :: (beBytes s.length ++ (s ++ rest))).drop
      (s.length + (L + 1)) = rest := by
    rw [hform, harg, drop_append_len, List.drop_left]
  rw [hdrop]

/-- A short-list framing decodes via the item loop over its payload. -/
theorem decodeCore_short_list (fuel : Nat) (payload rest : List Nat)
    (ds : List Item) (h56 : payload.length ≤ 55)
    (hitems : decodeItems fuel payload = .ok ds) :
    decodeCore (fuel + 1) ((payload.length + 192) :: (payload ++ rest)) =
      .ok (.list ds, rest) := by
  simp only [decodeCore]
  rw [if_neg (by omega : ¬payload.length + 192 ≤ 0x7f),
    if_neg (by omega : ¬payload.length + 192 ≤ 0xb7),
    if_neg (by omega : ¬payload.length + 192 ≤ 0xbf),
    if_pos (by omega : payload.length + 192 ≤ 0xf7)]
  have hlen : payload.length + 192 - 0xbf = payload.length + 1 := by omega
  rw [hlen, jsSlice_one]
  have htake : (payload ++ rest).take (payload.length + 1 - 1) = payload := by
    have : payload.length + 1 - 1 = payload.length := by omega
    rw [this, List.take_left]
  rw [htake, hitems]
  have hdrop : ((payload.length + 192) :: (payload ++ rest)).drop
      (payload.length + 1) = rest := by
    have : ((payload.length + 192) :: (payload ++ rest)).drop
        (payload.length + 1) = (payload ++ rest).drop payload.length := by
      simp [List.drop_succ_cons]
    rw [this, List.drop_left]
  rw [hdrop]

/-- A long-list framing decodes via the item loop over its payload. -/
theorem decodeCore_long_list (fuel : Nat) (payload rest : List Nat)
    (ds : List Item) (h56 : 56 ≤ payload.length)
    (hbig : payload.length < 2 ^ 53)
    (hitems : decodeItems fuel payload = .ok ds) :
    decodeCore (fuel + 1)
      ((247 + (beBytes payload.length).length) ::
        (beBytes payload.length ++ (payload ++ rest))) =
      .ok (.list ds, rest) := by
  have hne : payload.length ≠ 0 := by omega
  have hL1 : 1 ≤ (beBytes payload.length).length := by
    have := beBytes_ne_nil payload.length hne
    cases hb : beBytes payload.length with
    | nil => exact absurd hb this
    | cons a t => simp [hb]
  have hL7 : (beBytes payload.length).length ≤ 7 := by
    refine beBytes_length_le 7 payload.length ?_
    have : (2 : Nat) ^ 53 ≤ 256 ^ 7 := by norm_num
    omega
  set L := (beBytes payload.length).length with hLdef
  simp only [decodeCore]
  rw [if_neg (by omega : ¬247 + L ≤ 0x7f),
    if_neg (by omega : ¬247 + L ≤ 0xb7),
    if_neg (by omega : ¬247 + L ≤ 0xbf),
    if_neg (by omega : ¬247 + L ≤ 0xf7)]
  have hll : 247 + L - 0xf6 = L + 1 := by omega
  rw [hll, jsSlice_one]
  have hslice : (beBytes payload.length ++ (payload ++ rest)).take (L + 1 - 1) =
      beBytes payload.length := by
    have : L + 1 - 1 = L := by omega
    rw [this, hLdef, List.take_left]
  rw [hslice, safeParseInt_beBytes payload.length hne]
  simp only [jsAdd, Option.map]
  have hgt : jsGt (some (payload.length + (L + 1)))
      ((247 + L) :: (beBytes payload.length ++ (payload ++ rest))).length =
      false := by
    simp only [jsGt, List.length_cons, List.length_append, decide_eq_false_iff_not]
    rw [← hLdef]
    omega
  rw [hgt]
  simp only [Bool.false_eq_true, if_false]
  have hp : ((247 + L) :: beBytes payload.length).length = L + 1 := by
    simp [hLdef]
  have hform : (247 + L) :: (beBytes payload.length ++ (payload ++ rest)) =
      ((247 + L) :: beBytes payload.length) ++ (payload ++ rest) := by
    simp
  have harg : payload.length + (L + 1) =
      ((247 + L) :: beBytes payload.length).length + payload.length := by
    rw [hp]
    omega
  have hinner : jsSlice ((247 + L) :: (beBytes payload.length ++ (payload ++ rest)))
      (L + 1) (some (payload.length + (L + 1))) = payload := by
    rw [hform, harg]
    have hp2 : L + 1 = ((247 + L) :: beBytes payload.length).length := hp.symm
    rw [hp2, jsSlice_append, List.take_left]
  rw [hinner]
  rw [if_neg (by omega : ¬payload.length = 0)]
  rw [hitems]
  have hdrop : jsSliceFrom
      ((247 + L) :: (beBytes payload.length ++ (payload ++ rest)))
      (some (payload.length + (L + 1))) = rest := by
    simp only [jsSliceFrom]
    rw [hform, harg, drop_append_len, List.drop_left]
  rw [hdrop]

/-! Structural facts about `encode`, `count` and `sizeOK`. -/

/-- Extracting the byte-string size bound. -/
theorem sizeOK_bytes (s : List Nat) (h : sizeOK (.bytes s) = true) :
    s.length < 2 ^ 53 := by
  simpa [sizeOK] using h

/-- Extracting the list payload bound and the child bounds. -/
theorem sizeOK_list (items : List Item) (h : sizeOK (.list items) = true) :
    (encodeAll items).length < 2 ^ 53 ∧ sizeAllOK items = true := by
  simpa [sizeOK] using h

/-- Extracting the head and tail bounds of `sizeAllOK`. -/
theorem sizeAllOK_cons (x : Item) (xs : List Item)
    (h : sizeAllOK (x :: xs) = true) :
    sizeOK x = true ∧ sizeAllOK xs = true := by
  simpa [sizeAllOK] using h

/-- Every item costs at least one unit of fuel. -/
theorem count_pos (x : Item) : 1 ≤ count x := by
  cases x <;> simp [count] <;> omega

/-- `countAll` adds up along a cons. -/
theorem countAll_cons (x : Item) (xs : List Item) :
    countAll (x :: xs) = count x + countAll xs := by
  simp [countAll]

/-- The encoding of a size-respecting item is nonempty. -/
theorem encode_ne_nil (x : Item) (h : sizeOK x = true) : encode x ≠ [] := by
  cases x with
  | bytes s =>
    have hlen := sizeOK_bytes s h
    simp only [encode]
    split
    · rename_i hc
      have : s.length = 1 := hc.1
      intro hnil
      rw [hnil] at this
      simp at this
    · rw [encodeLength_eq s.length 128 hlen (by omega)]
      split <;> simp
  | list items =>
    have hp := (sizeOK_list items h).1
    simp only [encode]
    rw [encodeLength_eq (encodeAll items).length 192 hp (by omega)]
    split <;> simp

mutual

/-- The fuel cost of an item is covered by twice its encoded size. -/
theorem count_le_encode (x : Item) (h : sizeOK x = true) :
    count x ≤ 2 * (encode x).length := by
  cases x with
  | bytes s =>
    have hne := encode_ne_nil (.bytes s) h
    have : 1 ≤ (encode (.bytes s)).length := by
      cases he : encode (.bytes s) with
      | nil => exact absurd he hne
      | cons a t => simp [he]
    simp only [count]
    omega
  | list items =>
    have hp := (sizeOK_list items h).1
    have hall := (sizeOK_list items h).2
    have hchild := countAll_le_encodeAll items hall
    simp only [count, encode]
    rw [encodeLength_eq (encodeAll items).length 192 hp (by omega)]
    split
    · simp only [List.length_append, List.length_cons, List.length_nil]
      omega
    · simp only [List.length_append, List.length_cons]
      omega

/-- The fuel cost of a sibling sequence is covered by twice its total
encoded size. -/
theorem countAll_le_encodeAll (xs : List Item) (h : sizeAllOK xs = true) :
    countAll xs ≤ 2 * (encodeAll xs).length := by
  cases xs with
  | nil => simp [countAll, encodeAll]
  | cons x xs =>
    obtain ⟨hx, hxs⟩ := sizeAllOK_cons x xs h
    have h1 := count_le_encode x hx
    have h2 := countAll_le_encodeAll xs hxs
    simp only [countAll, encodeAll, List.length_append]
    omega

end

mutual

/-- Round-trip at the recursive level: the decoder, run on the encoding of
any size-respecting item followed by arbitrary trailing bytes, returns
exactly that item and the trailing bytes, given fuel at least the fuel
cost of the item. -/
theorem decodeCore_encode (x : Item) (rest : List Nat) (fuel : Nat)
    (hf : count x ≤ fuel) (hs : sizeOK x = true) :
    decodeCore fuel (encode x ++ rest) = .ok (x, rest) := by
  cases x with
  | bytes s =>
    have hlen := sizeOK_bytes s hs
    obtain ⟨f, rfl⟩ : ∃ f, fuel = f + 1 := by
      have h1 : (1 : Nat) ≤ fuel := le_trans (by simp [count]) hf
      exact ⟨fuel - 1, by omega⟩
    by_cases hc : s.length = 1 ∧ jsLt s.head? 128 = true
    · obtain ⟨b, rfl⟩ := List.length_eq_one.mp hc.1
      have hb : b ≤ 0x7f := by
        have := hc.2
        simp only [List.head?_cons, jsLt, decide_eq_true_eq] at this
        omega
      have he : encode (Item.bytes [b]) = [b] := by
        simp only [encode]
        rw [if_pos hc]
      rw [he]
      exact decodeCore_single f b rest hb
    · have he : encode (Item.bytes s) = encodeLength s.length 128 ++ s := by
        simp only [encode]
        rw [if_neg hc]
      rw [he]
      by_cases h56 : s.length < 56
      · rw [encodeLength_eq s.length 128 hlen (by omega), if_pos h56]
        have hform : ([s.length + 128] ++ s) ++ rest =
            (s.length + 128) :: (s ++ rest) := by
          simp
        rw [hform]
        refine decodeCore_short_string f s rest (by omega) ?_
        intro h1
        cases hlt : jsLt s.head? 128 with
        | false => rfl
        | true => exact absurd ⟨h1, hlt⟩ hc
      · rw [encodeLength_eq s.length 128 hlen (by omega), if_neg h56]
        have hform : (((128 + 55 + (beBytes s.length).length) ::
            beBytes s.length) ++ s) ++ rest =
            (183 + (beBytes s.length).length) ::
              (beBytes s.length ++ (s ++ rest)) := by
          simp [List.cons_append, List.append_assoc]
        rw [hform]
        exact decodeCore_long_string f s rest (by omega) hlen
  | list items =>
    obtain ⟨hp, hall⟩ := sizeOK_list items hs
    have hcnt : count (Item.list items) = 2 + countAll items := by
      simp [count]
    rw [hcnt] at hf
    obtain ⟨f, rfl⟩ : ∃ f, fuel = f + 1 := ⟨fuel - 1, by omega⟩
    have hitems : decodeItems f (encodeAll items) = .ok items :=
      decodeItems_encodeAll items f (by omega) hall
    have he : encode (Item.list items) =
        encodeLength (encodeAll items).length 192 ++ encodeAll items := by
      simp only [encode]
    rw [he]
    by_cases h56 : (encodeAll items).length < 56
    · rw [encodeLength_eq _ 192 hp (by omega), if_pos h56]
      have hform : ([(encodeAll items).length + 192] ++ encodeAll items) ++ rest =
          ((encodeAll items).length + 192) :: (encodeAll items ++ rest) := by
        simp
      rw [hform]
      exact decodeCore_short_list f (encodeAll items) rest items (by omega) hitems
    · rw [encodeLength_eq _ 192 hp (by omega), if_neg h56]
      have hform : (((192 + 55 + (beBytes (encodeAll items).length).length) ::
          beBytes (encodeAll items).length) ++ encodeAll items) ++ rest =
          (247 + (beBytes (encodeAll items).length).length) ::
            (beBytes (encodeAll items).length ++ (encodeAll items ++ rest)) := by
        simp [List.cons_append, List.append_assoc]
      rw [hform]
      exact decodeCore_long_list f (encodeAll items) rest items (by omega) hp hitems

/-- Round-trip for the item loop: the loop over the concatenated encodings
of a size-respecting sibling sequence returns exactly those items. -/
theorem decodeItems_encodeAll (xs : List Item) (fuel : Nat)
    (hf : countAll xs + 1 ≤ fuel) (hs : sizeAllOK xs = true) :
    decodeItems fuel (encodeAll xs) = .ok xs := by
  cases xs with
  | nil =>
    have h : encodeAll ([] : List Item) = [] := by
      simp [encodeAll]
    rw [h, decodeItems_nil]
  | cons x xs =>
    obtain ⟨hx, hxs⟩ := sizeAllOK_cons x xs hs
    have hcx := count_pos x
    rw [countAll_cons] at hf
    obtain ⟨f, rfl⟩ : ∃ f, fuel = f + 1 := ⟨fuel - 1, by omega⟩
    have hx1 : decodeCore f (encode x ++ encodeAll xs) = .ok (x, encodeAll xs) :=
      decodeCore_encode x (encodeAll xs) f (by omega) hx
    have hx2 : decodeItems f (encodeAll xs) = .ok xs :=
      decodeItems_encodeAll xs f (by omega) hxs
    have hea : encodeAll (x :: xs) = encode x ++ encodeAll xs := by
      simp [encodeAll]
    rw [hea]
    obtain ⟨c, cs, hcs⟩ := List.exists_cons_of_ne_nil (encode_ne_nil x hx)
    rw [hcs]
    simp only [List.cons_append] at hx1 ⊢
    rw [hcs] at hx1
    simp only [List.cons_append] at hx1
    simp only [decodeItems, hx1, hx2]

end

/-! The claims. -/

/-- C1: round-trip of the codec.  The recursive decoder does invert the
encoder: for every size-respecting item tree, `decodeCore` on
`encode x` returns exactly `x` with an empty remainder.  But the claimed
top-level equality `decode (encode x) = x` FAILS on the code: the
top-level remainder test of `decode` is inverted (the source throws
"invalid remainder" when the remainder is empty, which is precisely the
state every complete encoding produces), so `decode (encode x)` always
throws.  This theorem records both halves. -/
theorem roundtrip_decode_encode (x : Item) (hsz : sizeOK x = true) :
    decodeCore (2 * (encode x).length + 2) (encode x) = .ok (x, []) ∧
    decode (encode x) = .error .errInvalidRemainder := by
  have hc := count_le_encode x hsz
  have h1 : decodeCore (2 * (encode x).length + 2) (encode x ++ []) =
      .ok (x, []) :=
    decodeCore_encode x [] _ (by omega) hsz
  rw [List.append_nil] at h1
  refine ⟨h1, ?_⟩
  have hne := encode_ne_nil x hsz
  have hlen : ¬(encode x).length = 0 := by
    simpa [List.length_eq_zero] using hne
  simp only [decode, hlen, if_false, h1, List.length_nil, if_true]

/-- C1 witness: the empty byte string encodes to `[0x80]`, and top-level
decode of it throws "invalid remainder". -/
theorem roundtrip_decode_encode_witness :
    decode (encode (.bytes [])) = .error .errInvalidRemainder :=
  (roundtrip_decode_encode (.bytes []) rfl).2

/-- C2: the claim that top-level decode rejects trailing bytes with
TrailingBytes and accepts an exactly-consumed buffer is INVERTED in the
code: `[0x81, 0x80]` is exactly one well-formed item and decode throws
"invalid remainder", while `[0x81, 0x80, 0x01]` has one trailing byte and
decode happily returns the first item, ignoring the trailer. -/
theorem decode_remainder_inverted :
    decode [0x81, 0x80] = .error .errInvalidRemainder ∧
    decode [0x81, 0x80, 0x01] = .ok (.bytes [0x80]) :=
  ⟨rfl, rfl⟩

/-- C3 counterexample: two of the five claimed branch formulas fail on
the code.  For a single self-encoded byte the claim says `getLength`
returns 1, but the code returns the whole input length (here 2); for a
long string the claim says `1 + (b - 0xb7) + len`, but the code returns
only the prefix length `1 + (b - 0xb7)` without reading the length field
(here 2 instead of 4). -/
theorem getLength_claim_counterexample :
    getLength (some [0x05, 0x06]) = .ok (.num (some 2)) ∧
    getLength (some [0x05, 0x06]) ≠ .ok (.num (some 1)) ∧
    getLength (some [0xb8, 0x02, 0xaa, 0xbb]) = .ok (.num (some 2)) ∧
    getLength (some [0xb8, 0x02, 0xaa, 0xbb]) ≠ .ok (.num (some 4)) := by
  have h1 : getLength (some [0x05, 0x06]) = .ok (.num (some 2)) := rfl
  have h2 : getLength (some [0xb8, 0x02, 0xaa, 0xbb]) = .ok (.num (some 2)) := rfl
  refine ⟨h1, ?_, h2, ?_⟩
  · rw [h1]
    intro h
    simp at h
  · rw [h2]
    intro h
    simp at h

/-- C3 amended: the actual branch table of `getLength`.  A first byte up
to 0x7f returns the full input length; a short string returns
`1 + (b - 0x80)`; a long string returns only the prefix length
`1 + (b - 0xb7)`, never adding the payload length; a short list returns
`1 + (b - 0xc0)`; a long list parses the length field and returns
`1 + (b - 0xf7) + len`, the only branch that includes a parsed payload
length. -/
theorem getLength_branches (l : List Nat) (b : Nat) (hb : l.head? = some b) :
    (b ≤ 0x7f → getLength (some l) = .ok (.num (some l.length))) ∧
    (0x80 ≤ b → b ≤ 0xb7 → getLength (some l) = .ok (.num (some (b - 0x7f)))) ∧
    (0xb8 ≤ b → b ≤ 0xbf → getLength (some l) = .ok (.num (some (b - 0xb6)))) ∧
    (0xc0 ≤ b → b ≤ 0xf7 → getLength (some l) = .ok (.num (some (b - 0xbf)))) ∧
    (0xf8 ≤ b → ∀ len, safeParseInt (jsSlice l 1 (some (b - 0xf6))) = .ok (some len) →
      getLength (some l) = .ok (.num (some (len + (b - 0xf6))))) := by
  obtain ⟨t, rfl⟩ : ∃ t, l = b :: t := by
    cases l with
    | nil => simp at hb
    | cons a t =>
      simp only [List.head?_cons, Option.some.injEq] at hb
      exact ⟨t, by rw [hb]⟩
  refine ⟨?_, ?_, ?_, ?_, ?_⟩
  · intro h1
    simp only [getLength]
    rw [if_pos h1]
  · intro h1 h2
    simp only [getLength]
    rw [if_neg (by omega), if_pos h2]
  · intro h1 h2
    simp only [getLength]
    rw [if_neg (by omega), if_neg (by omega), if_pos h2]
  · intro h1 h2
    simp only [getLength]
    rw [if_neg (by omega), if_neg (by omega), if_neg (by omega), if_pos h2]
  · intro h1 len hparse
    simp only [getLength]
    rw [if_neg (by omega), if_neg (by omega), if_neg (by omega),
      if_neg (by omega), hparse]
    simp [jsAdd]

/-- C3 amended witness: a short string and a long list evaluated through
the amended branch table. -/
theorem getLength_branches_witness :
    getLength (some [0x85, 1, 2]) = .ok (.num (some (0x85 - 0x7f))) ∧
    getLength (some [0xf8, 0x03, 9]) = .ok (.num (some (3 + (0xf8 - 0xf6)))) :=
  ⟨(getLength_branches [0x85, 1, 2] 0x85 rfl).2.1 (by norm_num) (by norm_num),
   (getLength_branches [0xf8, 0x03, 9] 0xf8 rfl).2.2.2.2 (by norm_num) 3 rfl⟩

/-- C4 counterexample: in the list `[0xc2, 0x83, 0x01]` the declared list
payload span is the two bytes `[0x83, 0x01]`, whose single child declares
a 3-byte string payload overrunning the span.  The claim says this fails
with InvalidListFraming; in fact no such check exists in the code:
`Buffer.slice` clamps, the truncated child `[0x01]` is returned as data,
and the loop ends normally with an empty remainder. -/
theorem listFraming_counterexample :
    decodeCore 4 [0xc2, 0x83, 0x01] = .ok (.list [.bytes [0x01]], []) ∧
    decode [0xc2, 0x83, 0x01, 0xff] = .ok (.list [.bytes [0x01]]) :=
  ⟨rfl, rfl⟩

/-- Length of a slice with numeric indices. -/
theorem jsSlice_length (l : List Nat) (s e : Nat) :
    (jsSlice l s (some e)).length = min e l.length - min s l.length := by
  simp only [jsSlice, List.length_take, List.length_drop]
  omega

set_option maxRecDepth 4000 in
/-- C4 amended: what the list branches actually guarantee.  In BOTH list
forms, any error produced by the child loop over the captured payload
span propagates immediately and unchanged out of the list decode (first
two conjuncts: short-list and long-list framing); and within the loop a
failure of any child at any position surfaces: an error of the leading
child of a span fails the loop with that error (third conjunct), and an
error occurring in the loop after any successfully decoded child fails
the loop with that error (fourth conjunct) — together, by induction
along the loop, a failure of any child propagates.  There is no
InvalidListFraming check, and an overrunning short-string child is
silently truncated (see the counterexample). -/
theorem decode_list_child_error (g : Nat) (input span : List Nat)
    (b len : Nat) (e : Err) (d : Item) (r : List Nat) :
    (input.head? = some b → 0xc0 ≤ b → b ≤ 0xf7 →
      span = jsSlice input 1 (some (b - 0xbf)) →
      decodeItems g span = .error e →
      decodeCore (g + 1) input = .error e) ∧
    (input.head? = some b → 0xf8 ≤ b →
      safeParseInt (jsSlice input 1 (some (b - 0xf6))) = .ok (some len) →
      len + (b - 0xf6) ≤ input.length →
      span = jsSlice input (b - 0xf6) (some (len + (b - 0xf6))) →
      decodeItems g span = .error e →
      decodeCore (g + 1) input = .error e) ∧
    (span ≠ [] → decodeCore g span = .error e →
      decodeItems (g + 1) span = .error e) ∧
    (decodeCore g span = .ok (d, r) → decodeItems g r = .error e →
      decodeItems (g + 1) span = .error e) := by
  refine ⟨?_, ?_, ?_, ?_⟩
  · intro hb h1 h2 hspan herr
    obtain ⟨t, rfl⟩ : ∃ t, input = b :: t := by
      cases input with
      | nil => simp at hb
      | cons a t =>
        simp only [List.head?_cons, Option.some.injEq] at hb
        exact ⟨t, by rw [hb]⟩
    subst hspan
    simp only [decodeCore]
    rw [if_neg (by omega : ¬b ≤ 0x7f), if_neg (by omega : ¬b ≤ 0xb7),
      if_neg (by omega : ¬b ≤ 0xbf), if_pos h2, herr]
  · intro hb h1 hparse hfit hspan herr
    have hpos := safeParseInt_pos _ len hparse
    obtain ⟨t, rfl⟩ : ∃ t, input = b :: t := by
      cases input with
      | nil => simp at hb
      | cons a t =>
        simp only [List.head?_cons, Option.some.injEq] at hb
        exact ⟨t, by rw [hb]⟩
    subst hspan
    simp only [decodeCore]
    rw [if_neg (by omega : ¬b ≤ 0x7f), if_neg (by omega : ¬b ≤ 0xb7),
      if_neg (by omega : ¬b ≤ 0xbf), if_neg (by omega : ¬b ≤ 0xf7), hparse]
    simp only [jsAdd, Option.map]
    have hgt : jsGt (some (len + (b - 0xf6))) (b :: t).length = false := by
      simp only [jsGt, decide_eq_false_iff_not]
      omega
    rw [hgt]
    simp only [Bool.false_eq_true, if_false]
    have hlen : (jsSlice (b :: t) (b - 0xf6)
        (some (len + (b - 0xf6)))).length = len := by
      rw [jsSlice_length]
      simp only [List.length_cons] at hfit ⊢
      omega
    rw [hlen, if_neg (by omega : ¬len = 0), herr]
  · intro hne hchild
    obtain ⟨c, cs, hcs⟩ := List.exists_cons_of_ne_nil hne
    subst hcs
    simp only [decodeItems, hchild]
  · intro hok herr
    cases span with
    | nil =>
      exfalso
      cases g with
      | zero => simp [decodeCore] at hok
      | succ k => simp [decodeCore] at hok
    | cons c cs =>
      simp only [decodeItems, hok, herr]


/-- C4 amended witness: the non-canonical child `[0x81, 0x00]` inside a
short list and inside a long list, a span whose leading child fails, and
a span whose SECOND child fails after a successful first child. -/
theorem decode_list_child_error_witness :
    decodeCore 3 [0xc2, 0x81, 0x00] = .error .errNonCanonical ∧
    decodeCore 3 [0xf8, 0x02, 0x81, 0x00] = .error .errNonCanonical ∧
    decodeItems 2 [0x81, 0x00] = .error .errNonCanonical ∧
    decodeItems 3 [0x01, 0x81, 0x00] = .error .errNonCanonical :=
  ⟨(decode_list_child_error 2 [0xc2, 0x81, 0x00] [0x81, 0x00] 0xc2 0
      .errNonCanonical (.bytes []) []).1 rfl (by norm_num) (by norm_num)
      rfl rfl,
   (decode_list_child_error 2 [0xf8, 0x02, 0x81, 0x00] [0x81, 0x00] 0xf8 2
      .errNonCanonical (.bytes []) []).2.1 rfl (by norm_num) rfl
      (by norm_num) rfl rfl,
   (decode_list_child_error 1 [] [0x81, 0x00] 0 0 .errNonCanonical
      (.bytes []) []).2.2.1 (by simp) rfl,
   (decode_list_child_error 2 [] [0x01, 0x81, 0x00] 0 0 .errNonCanonical
      (.bytes [0x01]) [0x81, 0x00]).2.2.2 rfl rfl⟩

/-- C5 counterexample: the claim says `toBuffer` fails with
InvalidInputType for every negative integer; in fact `toBuffer (-5)`
succeeds and returns an empty buffer, because `(-5).toString 16` is the
string `-5` whose leading minus sign makes `Buffer.from _ hex` stop
immediately. -/
theorem toBuffer_negative_counterexample : toBuffer (.num (-5)) = .ok [] := by
  have hab : Int.natAbs (-5) = 5 := rfl
  have h5 : hexDigits 5 = [hexChar 5] := hexDigits_lt16 5 (by norm_num)
  have hhex : intToHex (-5) = ['-', hexChar 5] := by
    simp only [intToHex]
    rw [if_pos (by norm_num : (-5 : Int) < 0), hab, h5]
    exact padToEven_even _ (by simp)
  have hm : hexDigitVal '-' = none := rfl
  simp only [toBuffer]
  rw [if_neg (by norm_num : ¬(-5 : Int) = 0), hhex]
  simp [bufferFromHex, hm]

/-- C5 amended: `toBuffer` does fail with InvalidInputType for inputs
outside the accepted shapes (values that are not a Buffer, string,
number, null, undefined, and expose no digit-array conversion, e.g.
booleans or plain objects), but a negative integer does NOT fail: its hex
rendering starts with a minus sign, `Buffer.from _ hex` stops at that
invalid character, and the result is the empty buffer.  (Floating point
numbers are outside this embedding.) -/
theorem toBuffer_domain (i : Int) (hneg : i < 0) :
    toBuffer .other = .error .errInvalidType ∧ toBuffer (.num i) = .ok [] := by
  refine ⟨rfl, ?_⟩
  simp only [toBuffer]
  rw [if_neg (by omega : ¬i = 0)]
  have hhex : intToHex i = padToEven ('-' :: hexDigits i.natAbs) := by
    simp only [intToHex]
    rw [if_pos hneg]
  rw [hhex]
  have hm : hexDigitVal '-' = none := rfl
  have h0 : hexDigitVal '0' = some 0 := rfl
  obtain ⟨c, cs, hcs⟩ :=
    List.exists_cons_of_ne_nil (hexDigits_ne_nil i.natAbs)
  rw [hcs]
  by_cases hpar : (cs.length + 1 + 1) % 2 = 1
  · have hp : padToEven ('-' :: c :: cs) = '0' :: '-' :: c :: cs := by
      simp only [padToEven, List.length_cons]
      rw [if_pos hpar]
    rw [hp]
    simp [bufferFromHex, hm, h0]
  · have hp : padToEven ('-' :: c :: cs) = '-' :: c :: cs := by
      simp only [padToEven, List.length_cons]
      rw [if_neg hpar]
    rw [hp]
    simp [bufferFromHex, hm]

/-- C5 amended witness at the concrete inputs `other` and `-5`. -/
theorem toBuffer_domain_witness :
    toBuffer .other = .error .errInvalidType ∧ toBuffer (.num (-5)) = .ok [] :=
  toBuffer_domain (-5) (by norm_num)

/-- C6: decoding `[0x81, b]` for any byte value `b < 0x80` fails with
the non-canonical-single-byte error ("invalid rlp encoding: byte must be
less 0x80"), because such a byte must have been encoded bare. -/
theorem decode_nonCanonicalSingleByte (b : Nat) (hb : b < 0x80) :
    decode [0x81, b] = .error .errNonCanonical := by
  have hcore : decodeCore 6 [0x81, b] = .error .errNonCanonical := by
    show decodeCore (5 + 1) (0x81 :: [b]) = .error .errNonCanonical
    simp only [decodeCore]
    rw [if_neg (by norm_num : ¬(0x81 : Nat) ≤ 0x7f),
      if_pos (by norm_num : (0x81 : Nat) ≤ 0xb7),
      if_neg (by norm_num : ¬(0x81 : Nat) = 0x80), jsSlice_one]
    have ht : (([b] : List Nat).take ((0x81 : Nat) - 0x7f - 1)) = [b] := by
      norm_num
    rw [ht]
    simp [jsLt, hb]
  have hlen : ¬([0x81, b] : List Nat).length = 0 := by simp
  simp only [decode, hlen, if_false]
  have h6 : 2 * ([0x81, b] : List Nat).length + 2 = 6 := by simp
  rw [h6, hcore]

/-- C6 witness at the boundary literal of the specification,
`[0x81, 0x00]`. -/
theorem decode_nonCanonicalSingleByte_witness :
    decode [0x81, 0x00] = .error .errNonCanonical :=
  decode_nonCanonicalSingleByte 0 (by norm_num)

/-- C7: for both base offsets and every payload length JavaScript
represents exactly, `encodeLength` emits the single byte
`offset + payloadLength` below 56, and otherwise the marker byte
`offset + 55 + lengthByteCount` followed by the minimal big-endian bytes
of the length — no leading zero byte, folding back to the length; and it
has no failure path (the embedding is a total function). -/
theorem encodeLength_spec (len offset : Nat)
    (hoff : offset = 0x80 ∨ offset = 0xc0) (hlen : len < 2 ^ 53) :
    encodeLength len offset =
      (if len < 56 then [offset + len]
       else (offset + 55 + (beBytes len).length) :: beBytes len) ∧
    (beBytes len).head? ≠ some 0 ∧ beFold (beBytes len) = len := by
  have hoff2 : offset ≤ 192 := by
    rcases hoff with h | h <;> omega
  refine ⟨?_, ?_, beFold_beBytes len⟩
  · rw [encodeLength_eq len offset hlen hoff2]
    by_cases h : len < 56
    · rw [if_pos h, if_pos h, Nat.add_comm]
    · rw [if_neg h, if_neg h]
  · by_cases h0 : len = 0
    · subst h0
      rw [beBytes_zero]
      simp
    · obtain ⟨c, t, hbt, hc⟩ := beBytes_head_pos len h0
      rw [hbt]
      simp [hc]

/-- C7 witness: a long length (300, two length bytes behind a 0xf9
marker) and a short one (3 behind 0x80). -/
theorem encodeLength_spec_witness :
    encodeLength 300 0xc0 = [0xf9, 0x01, 0x2c] ∧
    encodeLength 3 0x80 = [0x83] := by
  have h1 := (encodeLength_spec 300 0xc0 (Or.inr rfl) (by norm_num)).1
  have h2 := (encodeLength_spec 3 0x80 (Or.inl rfl) (by norm_num)).1
  have hb : beBytes 300 = [1, 44] := by
    rw [beBytes_succ 300 (by norm_num)]
    have hd : (300 : Nat) / 256 = 1 := by norm_num
    have hm : (300 : Nat) % 256 = 44 := by norm_num
    rw [hd, hm, beBytes_single 1 (by norm_num) (by norm_num)]
    rfl
  constructor
  · rw [h1, if_neg (by norm_num), hb]
    norm_num
  · rw [h2, if_pos (by norm_num)]

/-- `jsAdd` on a real number. -/
theorem jsAdd_some (n k : Nat) : jsAdd (some n) k = some (n + k) := rfl

/-- `jsAdd` on NaN. -/
theorem jsAdd_none (k : Nat) : jsAdd none k = none := rfl

/-- Comparison with NaN is false. -/
theorem jsGt_none (k : Nat) : jsGt none k = false := rfl

set_option maxRecDepth 4000 in
/-- C8: when a long-string or long-list length field parses to a payload
length that exceeds what remains in the buffer, decode fails: the long
string with "invalid RLP" (the `data.length < length` truncation check)
and the long list with "invalid rlp: total length is larger than the
data" — both the TruncatedInput condition of the specification. -/
theorem decode_truncated (input : List Nat) (b len : Nat)
    (hb : input.head? = some b) :
    (0xb8 ≤ b → b ≤ 0xbf →
      safeParseInt (jsSlice input 1 (some (b - 0xb6))) = .ok (some len) →
      input.length < (b - 0xb6) + len →
      decode input = .error .errInvalidRLP) ∧
    (0xf8 ≤ b →
      safeParseInt (jsSlice input 1 (some (b - 0xf6))) = .ok (some len) →
      input.length < (b - 0xf6) + len →
      decode input = .error .errTotalLength) := by
  obtain ⟨t, rfl⟩ : ∃ t, input = b :: t := by
    cases input with
    | nil => simp at hb
    | cons a t =>
      simp only [List.head?_cons, Option.some.injEq] at hb
      exact ⟨t, by rw [hb]⟩
  have hlen0 : ¬(b :: t).length = 0 := by simp
  constructor
  · intro h1 h2 hparse htrunc
    have hpos := safeParseInt_pos _ len hparse
    simp only [decode, hlen0, if_false]
    have hF : 2 * (b :: t).length + 2 = (2 * (b :: t).length + 1) + 1 := by omega
    rw [hF]
    have hcore : decodeCore ((2 * (b :: t).length + 1) + 1) (b :: t) =
        .error .errInvalidRLP := by
      simp only [decodeCore]
      rw [if_neg (by omega : ¬b ≤ 0x7f), if_neg (by omega : ¬b ≤ 0xb7),
        if_pos (by omega : b ≤ 0xbf), hparse]
      simp only [jsAdd, Option.map]
      have hlt : jsLtNum
          (jsSlice (b :: t) (b - 0xb6) (some (len + (b - 0xb6)))).length
          (some len) = true := by
        simp only [jsLtNum, decide_eq_true_eq, jsSlice_length]
        simp only [List.length_cons] at htrunc ⊢
        omega
      rw [if_pos hlt]
    rw [hcore]
  · intro h1 hparse htrunc
    simp only [decode, hlen0, if_false]
    have hF : 2 * (b :: t).length + 2 = (2 * (b :: t).length + 1) + 1 := by omega
    rw [hF]
    have hcore : decodeCore ((2 * (b :: t).length + 1) + 1) (b :: t) =
        .error .errTotalLength := by
      simp only [decodeCore]
      rw [if_neg (by omega : ¬b ≤ 0x7f), if_neg (by omega : ¬b ≤ 0xb7),
        if_neg (by omega : ¬b ≤ 0xbf), if_neg (by omega : ¬b ≤ 0xf7), hparse]
      simp only [jsAdd, Option.map]
      have hgt : jsGt (some (len + (b - 0xf6))) (b :: t).length = true := by
        simp only [jsGt, decide_eq_true_eq]
        simp only [List.length_cons] at htrunc ⊢
        omega
      rw [if_pos hgt]
    rw [hcore]

/-- C8 witness: a long string declaring 5 payload bytes with none present,
and a long list doing the same. -/
theorem decode_truncated_witness :
    decode [0xb8, 0x05] = .error .errInvalidRLP ∧
    decode [0xf8, 0x05] = .error .errTotalLength :=
  ⟨(decode_truncated [0xb8, 0x05] 0xb8 5 rfl).1 (by norm_num) (by norm_num)
      rfl (by norm_num),
   (decode_truncated [0xf8, 0x05] 0xf8 5 rfl).2 (by norm_num) rfl (by norm_num)⟩

set_option maxRecDepth 4000 in
/-- C9: a long-list buffer whose length field is absent (so `parseInt`
of the empty hex string yields NaN, which the payload-span slice coerces
to zero, an empty span) passes the total-length fit check (any comparison
with NaN is false) and then always fails with "invalid rlp, List has a
invalid length"; and the empty list is accepted only in its short form
`0xc0`, which the recursive decoder parses as the empty list. -/
theorem decode_longList_emptySpan (input : List Nat) (b : Nat)
    (hb : input.head? = some b) (h1 : 0xf8 ≤ b) (h2 : b ≤ 0xff)
    (hnan : safeParseInt (jsSlice input 1 (some (b - 0xf6))) = .ok none) :
    decode input = .error .errListLength ∧
    decodeCore 3 [0xc0] = .ok (.list [], []) := by
  refine ⟨?_, rfl⟩
  obtain ⟨t, rfl⟩ : ∃ t, input = b :: t := by
    cases input with
    | nil => simp at hb
    | cons a t =>
      simp only [List.head?_cons, Option.some.injEq] at hb
      exact ⟨t, by rw [hb]⟩
  have hlen0 : ¬(b :: t).length = 0 := by simp
  simp only [decode, hlen0, if_false]
  have hF : 2 * (b :: t).length + 2 = (2 * (b :: t).length + 1) + 1 := by omega
  rw [hF]
  have hcore : decodeCore ((2 * (b :: t).length + 1) + 1) (b :: t) =
      .error .errListLength := by
    simp only [decodeCore]
    rw [if_neg (by omega : ¬b ≤ 0x7f), if_neg (by omega : ¬b ≤ 0xb7),
      if_neg (by omega : ¬b ≤ 0xbf), if_neg (by omega : ¬b ≤ 0xf7), hnan]
    simp only [jsAdd, Option.map, jsGt_none, Bool.false_eq_true, if_false]
    rw [jsSlice_none]
    simp only [List.length_nil, if_true]
  rw [hcore]

/-- C9 witness: the one-byte buffer `[0xf8]`, whose length field is
entirely missing. -/
theorem decode_longList_emptySpan_witness :
    decode [0xf8] = .error .errListLength ∧
    decodeCore 3 [0xc0] = .ok (.list [], []) :=
  decode_longList_emptySpan [0xf8] 0xf8 rfl (by norm_num) (by norm_num) rfl

/-- C10: `getLength` on a missing input (`null` or `undefined`, both
falsy) and on an empty buffer returns an empty Buffer — the `buf`
result shape, not a number — and raises no error. -/
theorem getLength_empty_input :
    getLength none = .ok (.buf []) ∧ getLength (some []) = .ok (.buf []) :=
  ⟨rfl, rfl⟩
